import Mathlib

/-!
# Verification of the `uvb76_gen` encode/decode pipeline

Shallow embedding of `src/uvb76_gen/crypto.py` (and the group-token parser of
`src/uvb76_gen/russian.py`), together with proofs of the frozen claims about
the repository.

Modelling conventions
- Python `str` is modelled by Lean `String` (a structure over `List Char`);
  per-character operations (`upper`, the `[^A-Z]` regex, `str.strip`,
  `int(·, 10)`, `\d`, `\w`) are modelled on their ASCII fragment, which covers
  every input the claims mention.  Python's `int`, which never overflows, is
  `Int`/`Nat`.
- `hashlib.sha256` (used only inside `_seed32` to derive the 32-bit PRNG seed
  from the mask key) is external library code; the functions that consume the
  seed take the resulting 32-bit integer directly as a `seed : Nat` argument,
  and every theorem quantifies over all seeds, hence over all mask keys.
- Python exceptions are modelled with `Except`: `Uvb76GenError` messages on
  the decode path are the constructors of `DecodeErr` (keeping the offending
  token, which the Python message interpolates), and the `ValueError`s of the
  Russian group parser are the constructors of `RuParseErr`.
-/

set_option linter.unusedVariables false

deriving instance DecidableEq for Except

namespace Uvb76

/-- ASCII fragment of Python `str.upper` applied characterwise:
lowercase `a`–`z` (code points 97–122) map down by 32, everything else is
unchanged. -/
def pyUpper (c : Char) : Char :=
  if 97 ≤ c.toNat ∧ c.toNat ≤ 122 then Char.ofNat (c.toNat - 32) else c

/-- The character class kept by the `_AZ_RE = [^A-Z]` substitution: code
points 65–90. -/
def isUpperAZ (c : Char) : Bool :=
  decide (65 ≤ c.toNat ∧ c.toNat ≤ 90)

/-- ASCII decimal digit, the class matched by the regex `\d` and accepted by
`int(·, 10)` (code points 48–57). -/
def isDigitC (c : Char) : Bool :=
  decide (48 ≤ c.toNat ∧ c.toNat ≤ 57)

/-- The ASCII whitespace stripped by Python `str.strip` and split on by
`\s+`: space, tab, newline, carriage return, vertical tab, form feed. -/
def isPySpace (c : Char) : Bool :=
  c.toNat = 32 || c.toNat = 9 || c.toNat = 10 || c.toNat = 13 ||
    c.toNat = 11 || c.toNat = 12

/-- `sanitize_plaintext`: uppercase, then delete every character outside
`A`–`Z`. -/
def sanitize_plaintext (text : String) : String :=
  String.mk ((text.data.map pyUpper).filter isUpperAZ)

/-- `sanitize_key`: same normalisation as `sanitize_plaintext`, but the call
raises `Uvb76GenError` when no letter survives; `none` models that error. -/
def sanitize_key (key : String) : Option String :=
  let k := (key.data.map pyUpper).filter isUpperAZ
  if k.length = 0 then none else some (String.mk k)

/-- `letters_to_nums`: `A`–`Z` characters to symbols `0`–`25`
(`ord(ch) - 65`). -/
def letters_to_nums (text_az : String) : List Nat :=
  text_az.data.map (fun ch => ch.toNat - 65)

/-- `nums_to_letters`: symbols `0`–`25` back to characters
(`chr(65 + n)`). -/
def nums_to_letters (nums : List Nat) : String :=
  String.mk (nums.map (fun n => Char.ofNat (65 + n)))

/-- The loop body of `vigenere_encrypt`: `i` is the `enumerate` index, the
key is cycled with `key[i % len(key)]`. -/
def vigEncAux (key : List Nat) : List Nat → Nat → List Nat
  | [], _ => []
  | p :: rest, i => (p + key.getD (i % key.length) 0) % 26 :: vigEncAux key rest (i + 1)

/-- `vigenere_encrypt` over the `0..25` alphabet. -/
def vigenere_encrypt (plain key : List Nat) : List Nat :=
  vigEncAux key plain 0

/-- The loop body of `vigenere_decrypt`: `(c - k + 26) % 26`, computed over
`Int` exactly as Python computes it over its unbounded ints. -/
def vigDecAux (key : List Nat) : List Nat → Nat → List Nat
  | [], _ => []
  | c :: rest, i =>
    ((((c : Int) - (key.getD (i % key.length) 0 : Nat) + 26) % 26).toNat) :: vigDecAux key rest (i + 1)

/-- `vigenere_decrypt` over the `0..25` alphabet. -/
def vigenere_decrypt (cipher key : List Nat) : List Nat :=
  vigDecAux key cipher 0

/-- One advance of the `xorshift32` generator state (all arithmetic masked to
32 bits exactly as the source masks it). -/
def xsNext (x : Nat) : Nat :=
  let x1 := x ^^^ ((x <<< 13) &&& 0xFFFFFFFF)
  let x2 := x1 ^^^ ((x1 >>> 17) &&& 0xFFFFFFFF)
  let x3 := x2 ^^^ ((x2 <<< 5) &&& 0xFFFFFFFF)
  x3 &&& 0xFFFFFFFF

/-- `xorshift32 seed i` is the `i`-th value yielded by the generator
`xorshift32(seed)` of the source: the state starts at `seed & 0xFFFFFFFF` and
is advanced once before each yield. -/
def xorshift32 : Nat → Nat → Nat
  | seed, 0 => xsNext (seed &&& 0xFFFFFFFF)
  | seed, i + 1 => xsNext (xorshift32 seed i)

/-- The padding step of `encode_groups`: the `while` loop appends the
sentinel `26` until the length is a multiple of 3, i.e. `(3 - len % 3) % 3`
copies. -/
def padToTriple (nums : List Nat) : List Nat :=
  nums ++ List.replicate ((3 - nums.length % 3) % 3) 26

/-- The packing step of `encode_groups`: consecutive triplets `(a, b, c)`
become `a*27*27 + b*27 + c`.  Only ever applied to padded lists, whose length
is a multiple of 3. -/
def packTriplets : List Nat → List Nat
  | a :: b :: c :: rest => (a * 27 * 27 + b * 27 + c) :: packTriplets rest
  | _ => []

/-- Decimal digits of `n`, most significant first, with explicit fuel (any
fuel above `n` gives the digits of `n`); this is the rendering `str(g)`
performs for a non-negative `g`. -/
def decDigitsCore : Nat → Nat → List Char
  | 0, _ => []
  | f + 1, n =>
    if n < 10 then [Char.ofNat (48 + n)]
    else decDigitsCore f (n / 10) ++ [Char.ofNat (48 + n % 10)]

/-- `str(n)` for a natural number `n`. -/
def decRepr (n : Nat) : String :=
  String.mk (decDigitsCore (n + 1) n)

/-- Python `s.zfill(5)` on a (sign-free) digit string: left-pad with `'0'` to
width 5; strings of length at least 5 are unchanged. -/
def zfill5 (s : String) : String :=
  String.mk (List.replicate (5 - s.length) '0' ++ s.data)

/-- The group-emitting loop of `encode_groups`: the triplet at position `i`
(0-based) is offset by the `i`-th generator output reduced modulo 80318 and
rendered as a zero-padded 5-digit string. -/
def encodeTriples (seed : Nat) : List Nat → Nat → List String
  | [], _ => []
  | p :: rest, i =>
    zfill5 (decRepr (p + xorshift32 seed i % 80318)) :: encodeTriples seed rest (i + 1)

/-- `encode_groups`: pad with the sentinel, pack triplets base-27, add the
per-group offsets drawn in order from the generator.  `seed` stands for
`_seed32(mask_key)` (see the module docstring). -/
def encode_groups (cipher_nums : List Nat) (seed : Nat) : List String :=
  encodeTriples seed (packTriplets (padToTriple cipher_nums)) 0

/-- Python `s.strip()` (ASCII whitespace): drop leading and trailing
whitespace characters. -/
def pyStrip (s : String) : String :=
  String.mk (((s.data.dropWhile isPySpace).reverse.dropWhile isPySpace).reverse)

/-- The digit-and-underscore tail of the numeral grammar of `int(·, 10)`
(PEP 515): after the leading digit, underscores may appear only singly and
only between digits. -/
def digitsTail : List Char → Bool
  | [] => true
  | c :: rest =>
    if c = '_' then
      match rest with
      | [] => false
      | d :: rest' => isDigitC d && digitsTail rest'
    else isDigitC c && digitsTail rest

/-- Numeric value of a digit string, skipping the underscore separators that
`int(·, 10)` ignores. -/
def valFold (a : Nat) (l : List Char) : Nat :=
  l.foldl (fun acc c => if c = '_' then acc else acc * 10 + (c.toNat - 48)) a

/-- An unsigned numeral: a leading digit followed by a `digitsTail`. -/
def natToken (l : List Char) : Option Nat :=
  match l with
  | [] => none
  | c :: rest =>
    if isDigitC c && digitsTail rest then some (valFold 0 (c :: rest)) else none

/-- The body of `int(·, 10)` after whitespace stripping: an optional single
sign, then an unsigned numeral. -/
def pyIntCore (l : List Char) : Option Int :=
  match l with
  | [] => none
  | c :: rest =>
    if c = '+' then (natToken rest).map (fun v => (v : Int))
    else if c = '-' then (natToken rest).map (fun v => -(v : Int))
    else (natToken (c :: rest)).map (fun v => (v : Int))

/-- Python `int(g, 10)` (ASCII fragment): strip whitespace, optional sign,
decimal digits with underscore separators; `none` models the `ValueError`. -/
def pyInt (s : String) : Option Int :=
  pyIntCore (pyStrip s).data

/-- The decode-path errors raised by `decode_groups` (`Uvb76GenError`
messages), keeping the offending token exactly as the Python message
interpolates it. -/
inductive DecodeErr where
  | invalidGroup (g : String)
  | tripletOutOfRange (g : String)
  | symbolOutOfRange
deriving DecidableEq, Repr

/-- The group loop of `decode_groups`: whitespace-only tokens are skipped
without drawing an offset; otherwise the token is parsed, the `i`-th offset
is removed, the result is range-checked and unpacked base-27. -/
def decodeGroupsAux (seed : Nat) : List String → Nat → Except DecodeErr (List Nat)
  | [], _ => .ok []
  | g :: rest, i =>
    if pyStrip g = String.mk [] then decodeGroupsAux seed rest i
    else
      match pyInt g with
      | none => .error (.invalidGroup g)
      | some gi =>
        let off : Int := (xorshift32 seed i % 80318 : Nat)
        let n : Int := gi - off
        if n < 0 ∨ n > 19682 then .error (.tripletOutOfRange g)
        else
          match decodeGroupsAux seed rest (i + 1) with
          | .error e => .error e
          | .ok tail =>
            .ok (n.toNat / (27 * 27) :: n.toNat / 27 % 27 :: n.toNat % 27 :: tail)

/-- The sentinel-stripping `while` loop of `decode_groups`: pop trailing
`26`s. -/
def stripTrailingSentinels (l : List Nat) : List Nat :=
  (l.reverse.dropWhile (fun v => v == 26)).reverse

/-- `decode_groups`: run the group loop, strip trailing sentinels, and
validate that every remaining symbol is in `0..25`.  `seed` stands for
`_seed32(mask_key)`. -/
def decode_groups (groups : List String) (seed : Nat) : Except DecodeErr (List Nat) :=
  match decodeGroupsAux seed groups 0 with
  | .error e => .error e
  | .ok out =>
    let out' := stripTrailingSentinels out
    if out'.any (fun v => 25 < v) then .error .symbolOutOfRange else .ok out'

/-- Splitter core: cut `l` at every separator character, one (possibly
empty) piece per separator occurrence, accumulating the current piece in
reverse in `acc`. -/
def splitRunsAux (sep : Char → Bool) : List Char → List Char → List (List Char)
  | [], acc => [acc.reverse]
  | c :: rest, acc =>
    if sep c then acc.reverse :: splitRunsAux sep rest []
    else splitRunsAux sep rest (c :: acc)

/-- Non-empty maximal runs of non-separator characters.  `re.split` on a
one-or-more separator pattern followed by dropping empty pieces yields
exactly these runs, so this models both `re.split(\s+, ·)` of
`parse_groups_text` and `_TOKEN_SPLIT_RE.split` of `parse_groups_maybe_ru`
(each caller drops the empty pieces). -/
def splitTokens (sep : Char → Bool) (l : List Char) : List (List Char) :=
  (splitRunsAux sep l []).filter (fun t => !t.isEmpty)

/-- `parse_groups_text`: split the stripped text on whitespace and keep the
non-empty tokens. -/
def parse_groups_text (text : String) : List String :=
  (splitTokens isPySpace (pyStrip text).data).map (fun t => String.mk t)

/-- `CipherConfig` of the source: the Vigenère key and the masking key. -/
structure CipherConfig where
  key : String
  mask_key : String

/-- Errors of the high-level helpers: the empty-key `Uvb76GenError` raised by
`sanitize_key`, or a decode-path error. -/
inductive Uvb76Err where
  | emptyKey
  | decode (e : DecodeErr)
deriving DecidableEq, Repr

/-- `encrypt_to_groups`: sanitize the plaintext and both keys, encrypt, and
encode into groups.  `seed` stands for `_seed32(mk)` where `mk` is the
sanitized mask key. -/
def encrypt_to_groups (plaintext : String) (cfg : CipherConfig) (seed : Nat) :
    Except Uvb76Err (List String) :=
  match sanitize_key cfg.key, sanitize_key cfg.mask_key with
  | some k, some _mk =>
    .ok (encode_groups
          (vigenere_encrypt (letters_to_nums (sanitize_plaintext plaintext)) (letters_to_nums k))
          seed)
  | _, _ => .error .emptyKey

/-- `decrypt_from_groups`: sanitize both keys, decode the groups, decrypt,
and map symbols back to letters.  `seed` stands for `_seed32(mk)` as on the
encode side. -/
def decrypt_from_groups (groups : List String) (cfg : CipherConfig) (seed : Nat) :
    Except Uvb76Err String :=
  match sanitize_key cfg.key, sanitize_key cfg.mask_key with
  | some k, some _mk =>
    match decode_groups groups seed with
    | .error e => .error (.decode e)
    | .ok cipher_nums => .ok (nums_to_letters (vigenere_decrypt cipher_nums (letters_to_nums k)))
  | _, _ => .error .emptyKey

/-- The regex class `\w` used by `_TOKEN_SPLIT_RE = [^\w]+`: ASCII
alphanumerics and underscore; non-ASCII characters are treated as word
characters (true of all the Cyrillic letters the parser meets; non-ASCII
punctuation is approximated). -/
def isWordChar (c : Char) : Bool :=
  isDigitC c || decide (65 ≤ c.toNat ∧ c.toNat ≤ 90) ||
    decide (97 ≤ c.toNat ∧ c.toNat ≤ 122) || c = '_' || decide (127 < c.toNat)

/-- The `RUS_WORD_DIGIT` lookup of `russian.py`: uppercase Russian digit
words to their digit characters. -/
def ruWordDigit (t : List Char) : Option Char :=
  if t = ("НОЛЬ").data then some '0'
  else if t = ("ОДИН").data then some '1'
  else if t = ("ДВА").data then some '2'
  else if t = ("ТРИ").data then some '3'
  else if t = ("ЧЕТЫРЕ").data then some '4'
  else if t = ("ПЯТЬ").data then some '5'
  else if t = ("ШЕСТЬ").data then some '6'
  else if t = ("СЕМЬ").data then some '7'
  else if t = ("ВОСЕМЬ").data then some '8'
  else if t = ("ДЕВЯТЬ").data then some '9'
  else none

/-- The 5-digit buffer flushing of `parse_groups_maybe_ru`: collect digits
into complete groups of 5, leaving any short remainder unemitted. -/
def chunk5 : List Char → List String
  | a :: b :: c :: d :: e :: rest => String.mk [a, b, c, d, e] :: chunk5 rest
  | _ => []

/-- The `ValueError`s of `parse_groups_maybe_ru`. -/
inductive RuParseErr where
  | trailingDigits
  | trailingWords
  | noGroups
deriving DecidableEq, Repr

/-- `parse_groups_maybe_ru`: if the text contains at least 5 digit
characters, take the fast path (collect every digit, flush in groups of 5,
fail on a short remainder); otherwise split into word tokens, map Russian
digit words through `RUS_WORD_DIGIT`, flush in groups of 5, fail on a short
remainder or if no group was produced. -/
def parse_groups_maybe_ru (text : String) : Except RuParseErr (List String) :=
  let raw_digits := text.data.filter isDigitC
  if 5 ≤ raw_digits.length then
    if raw_digits.length % 5 = 0 then .ok (chunk5 raw_digits)
    else .error .trailingDigits
  else
    let tokens := splitTokens (fun c => !isWordChar c) (text.data.map pyUpper)
    let ds := tokens.filterMap ruWordDigit
    if ds.length % 5 ≠ 0 then .error .trailingWords
    else if (chunk5 ds).isEmpty then .error .noGroups
    else .ok (chunk5 ds)

/-- The three decode error kinds of the spec's error taxonomy, forgetting
the offending token that the Python message interpolates. -/
inductive DecodeErrKind where
  | invalidGroup
  | tripletOutOfRange
  | symbolOutOfRange
deriving DecidableEq, Repr

/-- Forget the token carried by a decode error. -/
def errKind : DecodeErr → DecodeErrKind
  | .invalidGroup _ => .invalidGroup
  | .tripletOutOfRange _ => .tripletOutOfRange
  | .symbolOutOfRange => .symbolOutOfRange

/-- Apply `errKind` to the error of a decode result. -/
def mapK : Except DecodeErr (List Nat) → Except DecodeErrKind (List Nat)
  | .error e => .error (errKind e)
  | .ok a => .ok a

/-- The decode outcome up to the spec's error taxonomy. -/
def decodeOutcome (groups : List String) (seed : Nat) : Except DecodeErrKind (List Nat) :=
  mapK (decode_groups groups seed)

/-- The integer values (`int(·, 10)` results, `none` for unparseable) of the
non-whitespace tokens, in order. -/
def tokenVals (groups : List String) : List (Option Int) :=
  (groups.filter (fun g => !(decide (pyStrip g = String.mk [])))).map pyInt

/-- The group loop of `decode_groups` replayed on token values alone. -/
def valsAux (seed : Nat) : List (Option Int) → Nat → Except DecodeErrKind (List Nat)
  | [], _ => .ok []
  | none :: _, _ => .error .invalidGroup
  | some gi :: rest, i =>
    let off : Int := (xorshift32 seed i % 80318 : Nat)
    let n : Int := gi - off
    if n < 0 ∨ n > 19682 then .error .tripletOutOfRange
    else
      match valsAux seed rest (i + 1) with
      | .error e => .error e
      | .ok tail =>
        .ok (n.toNat / (27 * 27) :: n.toNat / 27 % 27 :: n.toNat % 27 :: tail)

/-- `decode_groups` replayed on token values alone. -/
def outcomeVals (vals : List (Option Int)) (seed : Nat) : Except DecodeErrKind (List Nat) :=
  match valsAux seed vals 0 with
  | .error e => .error e
  | .ok out =>
    let out' := stripTrailingSentinels out
    if out'.any (fun v => 25 < v) then .error .symbolOutOfRange else .ok out'

theorem vigEncAux_length (key l : List Nat) : ∀ i, (vigEncAux key l i).length = l.length := by
  induction l with
  | nil => intro i; rfl
  | cons p rest ih => intro i; simp [vigEncAux, ih (i + 1)]

theorem vigDecAux_length (key l : List Nat) : ∀ i, (vigDecAux key l i).length = l.length := by
  induction l with
  | nil => intro i; rfl
  | cons c rest ih => intro i; simp [vigDecAux, ih (i + 1)]

theorem vigEncAux_mem_le (key l : List Nat) :
    ∀ i, ∀ x ∈ vigEncAux key l i, x ≤ 25 := by
  induction l with
  | nil => intro i x hx; simp [vigEncAux] at hx
  | cons p rest ih =>
    intro i x hx
    simp only [vigEncAux, List.mem_cons] at hx
    rcases hx with h | h
    · have : (p + key.getD (i % key.length) 0) % 26 < 26 := Nat.mod_lt _ (by omega)
      omega
    · exact ih (i + 1) x h

theorem vigDecAux_vigEncAux (key l : List Nat) (hl : ∀ a ∈ l, a ≤ 25) :
    ∀ i, vigDecAux key (vigEncAux key l i) i = l := by
  induction l with
  | nil => intro i; rfl
  | cons p rest ih =>
    intro i
    have hp : p ≤ 25 := hl p (by simp)
    simp only [vigEncAux, vigDecAux, List.cons.injEq]
    exact ⟨by omega, ih (fun a ha => hl a (by simp [ha])) (i + 1)⟩

theorem char_digit_facts : ∀ m, m < 10 →
    isDigitC (Char.ofNat (48 + m)) = true ∧ (Char.ofNat (48 + m)).toNat = 48 + m ∧
      ¬(Char.ofNat (48 + m) = '_') := by decide

theorem isDigitC_not_space (c : Char) (h : isDigitC c = true) : isPySpace c = false := by
  simp only [isDigitC, decide_eq_true_eq] at h
  simp only [isPySpace]
  simp only [Bool.or_eq_false_iff, decide_eq_false_iff_not]
  omega

theorem isDigitC_ne_underscore (c : Char) (h : isDigitC c = true) : ¬(c = '_') := by
  intro he; subst he; exact absurd h (by decide)

theorem isDigitC_ne_plus (c : Char) (h : isDigitC c = true) : ¬(c = '+') := by
  intro he; subst he; exact absurd h (by decide)

theorem isDigitC_ne_minus (c : Char) (h : isDigitC c = true) : ¬(c = '-') := by
  intro he; subst he; exact absurd h (by decide)

theorem decDigitsCore_ne_nil : ∀ f n, n < f → decDigitsCore f n ≠ [] := by
  intro f
  cases f with
  | zero => intro n h; omega
  | succ f =>
    intro n h
    by_cases h10 : n < 10
    · simp [decDigitsCore, if_pos h10]
    · simp only [decDigitsCore, if_neg h10]
      intro hx
      exact List.append_ne_nil_of_right_ne_nil _ (by simp) hx

theorem decDigitsCore_all_digit : ∀ f n, n < f → ∀ c ∈ decDigitsCore f n, isDigitC c = true := by
  intro f
  induction f with
  | zero => intro n h; omega
  | succ f ih =>
    intro n h c hc
    by_cases h10 : n < 10
    · simp only [decDigitsCore, if_pos h10, List.mem_singleton] at hc
      subst hc
      exact (char_digit_facts n h10).1
    · simp only [decDigitsCore, if_neg h10, List.mem_append, List.mem_singleton] at hc
      have hdiv : n / 10 < f := by
        have : n / 10 < n := Nat.div_lt_self (by omega) (by omega)
        omega
      rcases hc with h1 | h1
      · exact ih (n / 10) hdiv c h1
      · subst h1
        exact (char_digit_facts (n % 10) (Nat.mod_lt _ (by omega))).1

theorem valFold_decDigitsCore : ∀ f n a, n < f →
    valFold a (decDigitsCore f n) = a * 10 ^ (decDigitsCore f n).length + n := by
  intro f
  induction f with
  | zero => intro n a h; omega
  | succ f ih =>
    intro n a h
    by_cases h10 : n < 10
    · have hc := char_digit_facts n h10
      simp only [decDigitsCore, if_pos h10, valFold, List.foldl_cons, List.foldl_nil,
        List.length_cons, List.length_nil, if_neg hc.2.2, hc.2.1, pow_one, Nat.zero_add]
      omega
    · have hdiv : n / 10 < f := by
        have : n / 10 < n := Nat.div_lt_self (by omega) (by omega)
        omega
      have hc := char_digit_facts (n % 10) (Nat.mod_lt _ (by omega))
      simp only [decDigitsCore, if_neg h10, valFold, List.foldl_append, List.foldl_cons,
        List.foldl_nil, List.length_append, List.length_cons, List.length_nil,
        if_neg hc.2.2, hc.2.1]
      have hrec := ih (n / 10) a hdiv
      simp only [valFold] at hrec
      rw [hrec]
      have h48 : 48 + n % 10 - 48 = n % 10 := by omega
      rw [h48, pow_succ]
      have hmul : a * (10 ^ (decDigitsCore f (n / 10)).length * 10) =
          a * 10 ^ (decDigitsCore f (n / 10)).length * 10 := by
        rw [Nat.mul_assoc]
      rw [hmul]
      have hnm := Nat.div_add_mod n 10
      omega

theorem decDigitsCore_length_le : ∀ f n k, n < f → n < 10 ^ k → 1 ≤ k →
    (decDigitsCore f n).length ≤ k := by
  intro f
  induction f with
  | zero => intro n k h; omega
  | succ f ih =>
    intro n k h hk h1
    by_cases h10 : n < 10
    · simp only [decDigitsCore, if_pos h10, List.length_cons, List.length_nil]
      omega
    · simp only [decDigitsCore, if_neg h10, List.length_append, List.length_cons,
        List.length_nil]
      have hdiv : n / 10 < f := by
        have : n / 10 < n := Nat.div_lt_self (by omega) (by omega)
        omega
      cases k with
      | zero => omega
      | succ k' =>
        have hk' : n / 10 < 10 ^ k' := by
          rw [Nat.div_lt_iff_lt_mul (by omega)]
          calc n < 10 ^ (k' + 1) := hk
          _ = 10 ^ k' * 10 := by rw [pow_succ]
        have h1' : 1 ≤ k' := by
          by_contra hcon
          have : k' = 0 := by omega
          subst this
          simp at hk'
          omega
        have := ih (n / 10) k' hdiv hk' h1'
        omega

theorem dropWhile_no_space (l : List Char) (h : ∀ c ∈ l, isPySpace c = false) :
    l.dropWhile isPySpace = l := by
  cases l with
  | nil => rfl
  | cons c rest => rw [List.dropWhile_cons, if_neg (by simp [h c (by simp)])]

theorem pyStrip_no_space (l : List Char) (h : ∀ c ∈ l, isPySpace c = false) :
    pyStrip (String.mk l) = String.mk l := by
  simp only [pyStrip]
  rw [dropWhile_no_space l h,
    dropWhile_no_space l.reverse (fun c hc => h c (List.mem_reverse.mp hc)),
    List.reverse_reverse]

theorem digitsTail_cons_ne (c : Char) (rest : List Char) (h : ¬(c = '_')) :
    digitsTail (c :: rest) = (isDigitC c && digitsTail rest) := by
  rw [digitsTail.eq_def]
  simp [h]

theorem digitsTail_all_digit (l : List Char) (h : ∀ c ∈ l, isDigitC c = true) :
    digitsTail l = true := by
  induction l with
  | nil => rfl
  | cons c rest ih =>
    rw [digitsTail_cons_ne c rest (isDigitC_ne_underscore c (h c (by simp)))]
    rw [h c (by simp), ih (fun d hd => h d (by simp [hd]))]
    rfl

theorem pyIntCore_all_digit (l : List Char) (hne : l ≠ []) (h : ∀ c ∈ l, isDigitC c = true) :
    pyIntCore l = some ((valFold 0 l : Nat) : Int) := by
  cases l with
  | nil => exact absurd rfl hne
  | cons c rest =>
    have hc : isDigitC c = true := h c (by simp)
    simp only [pyIntCore]
    rw [if_neg (isDigitC_ne_plus c hc), if_neg (isDigitC_ne_minus c hc)]
    simp [natToken, hc, digitsTail_all_digit rest (fun d hd => h d (by simp [hd]))]

theorem valFold_cons (a : Nat) (c : Char) (l : List Char) :
    valFold a (c :: l) = valFold (if c = '_' then a else a * 10 + (c.toNat - 48)) l := rfl

theorem valFold_replicate_zero (k : Nat) (l : List Char) :
    valFold 0 (List.replicate k '0' ++ l) = valFold 0 l := by
  induction k with
  | zero => rfl
  | succ k ih =>
    rw [List.replicate_succ, List.cons_append, valFold_cons]
    have h1 : ¬(('0' : Char) = '_') := by decide
    have h2 : (('0' : Char)).toNat - 48 = 0 := by decide
    rw [if_neg h1, h2]
    simpa using ih

theorem token_data (v : Nat) :
    (zfill5 (decRepr v)).data =
      List.replicate (5 - (decDigitsCore (v + 1) v).length) '0' ++ decDigitsCore (v + 1) v := by
  simp [zfill5, decRepr]

theorem token_all_digit (v : Nat) : ∀ c ∈ (zfill5 (decRepr v)).data, isDigitC c = true := by
  intro c hc
  rw [token_data] at hc
  rcases List.mem_append.mp hc with h1 | h1
  · rw [List.eq_of_mem_replicate h1]; decide
  · exact decDigitsCore_all_digit (v + 1) v (by omega) c h1

theorem token_ne_nil (v : Nat) : (zfill5 (decRepr v)).data ≠ [] := by
  rw [token_data]
  exact List.append_ne_nil_of_right_ne_nil _ (decDigitsCore_ne_nil (v + 1) v (by omega))

theorem token_strip (v : Nat) : pyStrip (zfill5 (decRepr v)) = zfill5 (decRepr v) := by
  have h : ∀ c ∈ (zfill5 (decRepr v)).data, isPySpace c = false :=
    fun c hc => isDigitC_not_space c (token_all_digit v c hc)
  calc pyStrip (zfill5 (decRepr v)) = pyStrip (String.mk (zfill5 (decRepr v)).data) := rfl
  _ = String.mk (zfill5 (decRepr v)).data := pyStrip_no_space _ h
  _ = zfill5 (decRepr v) := rfl

theorem token_strip_ne_empty (v : Nat) : ¬(pyStrip (zfill5 (decRepr v)) = String.mk []) := by
  rw [token_strip]
  intro hcon
  exact token_ne_nil v (by simpa [zfill5] using congrArg String.data hcon)

theorem pyInt_token (v : Nat) : pyInt (zfill5 (decRepr v)) = some (v : Int) := by
  simp only [pyInt, token_strip]
  rw [pyIntCore_all_digit _ (token_ne_nil v) (token_all_digit v)]
  rw [token_data, valFold_replicate_zero]
  have := valFold_decDigitsCore (v + 1) v 0 (by omega)
  simp only [Nat.zero_mul, Nat.zero_add] at this
  rw [this]

theorem token_length (v : Nat) (hv : v ≤ 99999) : (zfill5 (decRepr v)).length = 5 := by
  have h5 : (decDigitsCore (v + 1) v).length ≤ 5 := by
    apply decDigitsCore_length_le (v + 1) v 5 (by omega) _ (by omega)
    have : (10 : Nat) ^ 5 = 100000 := by norm_num
    omega
  simp only [zfill5, String.length_mk, List.length_append, List.length_replicate, decRepr]
  omega

theorem decodeGroupsAux_skip (seed i : Nat) (g : String) (rest : List String)
    (h : pyStrip g = String.mk []) :
    decodeGroupsAux seed (g :: rest) i = decodeGroupsAux seed rest i := by
  simp [decodeGroupsAux, h]

theorem decodeGroupsAux_invalid (seed i : Nat) (g : String) (rest : List String)
    (hne : ¬pyStrip g = String.mk []) (hp : pyInt g = none) :
    decodeGroupsAux seed (g :: rest) i = .error (.invalidGroup g) := by
  simp [decodeGroupsAux, hne, hp]

theorem decodeGroupsAux_range (seed i : Nat) (g : String) (rest : List String) (gi : Int)
    (hne : ¬pyStrip g = String.mk []) (hp : pyInt g = some gi)
    (hr : gi - ((xorshift32 seed i % 80318 : Nat) : Int) < 0 ∨
      gi - ((xorshift32 seed i % 80318 : Nat) : Int) > 19682) :
    decodeGroupsAux seed (g :: rest) i = .error (.tripletOutOfRange g) := by
  simp only [decodeGroupsAux, hne, hp]
  simp
  intro h1 h2
  exfalso
  omega

theorem decodeGroupsAux_ok_step (seed i : Nat) (g : String) (rest : List String) (gi : Int)
    (hne : ¬pyStrip g = String.mk []) (hp : pyInt g = some gi)
    (hr : ¬(gi - ((xorshift32 seed i % 80318 : Nat) : Int) < 0 ∨
      gi - ((xorshift32 seed i % 80318 : Nat) : Int) > 19682)) :
    decodeGroupsAux seed (g :: rest) i =
      match decodeGroupsAux seed rest (i + 1) with
      | .error e => .error e
      | .ok tail =>
        .ok ((gi - ((xorshift32 seed i % 80318 : Nat) : Int)).toNat / (27 * 27) ::
          (gi - ((xorshift32 seed i % 80318 : Nat) : Int)).toNat / 27 % 27 ::
          (gi - ((xorshift32 seed i % 80318 : Nat) : Int)).toNat % 27 :: tail) := by
  simp [decodeGroupsAux, hne, hp, hr]
  intro hcon
  exfalso
  omega

/-- The flat unpacking that the decode loop performs on the packed values,
as one list function (used only to state the loop's round trip). -/
def unpackFlat : List Nat → List Nat
  | [] => []
  | n :: rest => n / (27 * 27) :: n / 27 % 27 :: n % 27 :: unpackFlat rest

theorem padToTriple_mem (l : List Nat) (h : ∀ a ∈ l, a ≤ 25) :
    ∀ a ∈ padToTriple l, a ≤ 26 := by
  intro a ha
  rcases List.mem_append.mp ha with h1 | h1
  · exact Nat.le_trans (h a h1) (by omega)
  · rw [List.eq_of_mem_replicate h1]

theorem padToTriple_length (l : List Nat) : (padToTriple l).length % 3 = 0 := by
  simp only [padToTriple, List.length_append, List.length_replicate]
  omega

theorem packTriplets_mem : ∀ L : List Nat, (∀ a ∈ L, a ≤ 26) →
    ∀ x ∈ packTriplets L, x ≤ 19682
  | [], _, x, hx => by simp [packTriplets] at hx
  | [a], _, x, hx => by simp [packTriplets] at hx
  | [a, b], _, x, hx => by simp [packTriplets] at hx
  | a :: b :: c :: rest, h, x, hx => by
    simp only [packTriplets, List.mem_cons] at hx
    rcases hx with h1 | h1
    · have ha : a ≤ 26 := h a (by simp)
      have hb : b ≤ 26 := h b (by simp)
      have hc : c ≤ 26 := h c (by simp)
      omega
    · exact packTriplets_mem rest (fun y hy => h y (by simp [hy])) x h1

theorem unpackFlat_packTriplets : ∀ L : List Nat, L.length % 3 = 0 → (∀ a ∈ L, a ≤ 26) →
    unpackFlat (packTriplets L) = L
  | [], _, _ => rfl
  | [a], h3, _ => by simp at h3
  | [a, b], h3, _ => by simp at h3
  | a :: b :: c :: rest, h3, h => by
    have ha : a ≤ 26 := h a (by simp)
    have hb : b ≤ 26 := h b (by simp)
    have hc : c ≤ 26 := h c (by simp)
    have h3' : rest.length % 3 = 0 := by
      simp only [List.length_cons] at h3
      omega
    simp only [packTriplets, unpackFlat, List.cons.injEq]
    refine ⟨by omega, by omega, by omega,
      unpackFlat_packTriplets rest h3' (fun y hy => h y (by simp [hy]))⟩

theorem decode_encode_aux (seed : Nat) : ∀ (P : List Nat) (i : Nat),
    (∀ p ∈ P, p ≤ 19682) →
    decodeGroupsAux seed (encodeTriples seed P i) i = .ok (unpackFlat P) := by
  intro P
  induction P with
  | nil => intro i h; rfl
  | cons p rest ih =>
    intro i h
    have hp : p ≤ 19682 := h p (by simp)
    have hoff : xorshift32 seed i % 80318 < 80318 := Nat.mod_lt _ (by omega)
    simp only [encodeTriples]
    rw [decodeGroupsAux_ok_step seed i _ _ ((p + xorshift32 seed i % 80318 : Nat) : Int)
      (token_strip_ne_empty _) (pyInt_token _) (by push_cast; omega)]
    rw [ih (i + 1) (fun y hy => h y (by simp [hy]))]
    have hn : (((p + xorshift32 seed i % 80318 : Nat) : Int) -
        ((xorshift32 seed i % 80318 : Nat) : Int)).toNat = p := by
      push_cast
      omega
    simp only [hn, unpackFlat]

theorem stripTrailingSentinels_append (S : List Nat) (k : Nat) (h : ∀ a ∈ S, a ≤ 25) :
    stripTrailingSentinels (S ++ List.replicate k 26) = S := by
  simp only [stripTrailingSentinels, List.reverse_append, List.reverse_replicate]
  have hdrop : ∀ m, (List.replicate m 26 ++ S.reverse).dropWhile (fun v => v == 26) =
      S.reverse.dropWhile (fun v => v == 26) := by
    intro m
    induction m with
    | zero => rfl
    | succ m ihm => rw [List.replicate_succ, List.cons_append, List.dropWhile_cons]; simp [ihm]
  rw [hdrop]
  cases hrev : S.reverse with
  | nil =>
    have : S = [] := by simpa using congrArg List.reverse hrev
    simp [this]
  | cons c cs =>
    have hc : c ∈ S := by
      have : c ∈ S.reverse := by rw [hrev]; simp
      exact List.mem_reverse.mp this
    have hcle : c ≤ 25 := h c hc
    rw [List.dropWhile_cons, if_neg (by simp; omega)]
    rw [← hrev, List.reverse_reverse]

theorem anyGT25_eq_false (S : List Nat) (h : ∀ a ∈ S, a ≤ 25) :
    S.any (fun v => 25 < v) = false := by
  rw [List.any_eq_false]
  intro x hx
  simp only [decide_eq_true_eq]
  have := h x hx
  omega

/-- Core of the group-level round trip, shared by the claims. -/
theorem decode_groups_encode_groups (S : List Nat) (seed : Nat) (hS : ∀ a ∈ S, a ≤ 25) :
    decode_groups (encode_groups S seed) seed = .ok S := by
  have hmem : ∀ a ∈ padToTriple S, a ≤ 26 := padToTriple_mem S hS
  have hpack : ∀ x ∈ packTriplets (padToTriple S), x ≤ 19682 := packTriplets_mem _ hmem
  unfold decode_groups encode_groups
  rw [decode_encode_aux seed _ 0 hpack]
  rw [unpackFlat_packTriplets _ (padToTriple_length S) hmem]
  show (let out' := stripTrailingSentinels (padToTriple S);
    if out'.any (fun v => 25 < v) then Except.error DecodeErr.symbolOutOfRange
    else Except.ok out') = Except.ok S
  rw [show padToTriple S = S ++ List.replicate ((3 - S.length % 3) % 3) 26 from rfl]
  rw [stripTrailingSentinels_append S _ hS]
  simp [anyGT25_eq_false S hS]

/-- `Except.isOk` as a plain definition (avoiding library name differences). -/
def exceptIsOk {ε α : Type} : Except ε α → Bool
  | .ok _ => true
  | .error _ => false

theorem sanitize_plaintext_chars (text : String) :
    ∀ c ∈ (sanitize_plaintext text).data, isUpperAZ c = true := by
  intro c hc
  simp only [sanitize_plaintext] at hc
  exact (List.mem_filter.mp hc).2

theorem letters_to_nums_le (s : String) (h : ∀ c ∈ s.data, isUpperAZ c = true) :
    ∀ a ∈ letters_to_nums s, a ≤ 25 := by
  intro a ha
  simp only [letters_to_nums, List.mem_map] at ha
  obtain ⟨c, hc, hceq⟩ := ha
  have := h c hc
  simp only [isUpperAZ, decide_eq_true_eq] at this
  omega

theorem nums_to_letters_letters_to_nums (s : String)
    (h : ∀ c ∈ s.data, isUpperAZ c = true) :
    nums_to_letters (letters_to_nums s) = s := by
  simp only [nums_to_letters, letters_to_nums, List.map_map]
  have hmap : s.data.map ((fun n => Char.ofNat (65 + n)) ∘ fun ch => ch.toNat - 65) =
      s.data.map id := by
    apply List.map_congr_left
    intro c hc
    have hb := h c hc
    simp only [isUpperAZ, decide_eq_true_eq] at hb
    have h65 : 65 + (c.toNat - 65) = c.toNat := by omega
    simp only [Function.comp_apply, id, h65, Char.ofNat_toNat]
  rw [hmap, List.map_id]

theorem sanitize_key_some (k ks : String) (h : sanitize_key k = some ks) :
    ks.data ≠ [] ∧ ∀ c ∈ ks.data, isUpperAZ c = true := by
  simp only [sanitize_key] at h
  split at h
  · exact absurd h (by simp)
  · rename_i hlen
    obtain rfl := Option.some.inj h
    constructor
    · intro hcon
      exact hlen (by simpa using congrArg List.length hcon)
    · intro c hc
      exact (List.mem_filter.mp hc).2

theorem vigenere_encrypt_mem_le (x k : List Nat) : ∀ a ∈ vigenere_encrypt x k, a ≤ 25 :=
  vigEncAux_mem_le k x 0

/-- C1: for every input string `text` and all keys `key`, `mask_key` that
each keep at least one `A`–`Z` letter after sanitization,
`decrypt_from_groups (encrypt_to_groups text cfg) cfg` returns exactly
`sanitize_plaintext text` and neither call raises an error.  `seed` is the
32-bit PRNG seed the source derives from the sanitized mask key, so the
statement quantifies over every mask key. -/
theorem encrypt_decrypt_round_trip (text : String) (cfg : CipherConfig) (seed : Nat)
    (gs : List String)
    (hk : sanitize_key cfg.key ≠ none) (hm : sanitize_key cfg.mask_key ≠ none)
    (henc : encrypt_to_groups text cfg seed = .ok gs) :
    exceptIsOk (encrypt_to_groups text cfg seed) = true ∧
      decrypt_from_groups gs cfg seed = .ok (sanitize_plaintext text) := by
  obtain ⟨k, hkeq⟩ := Option.ne_none_iff_exists'.mp hk
  obtain ⟨mkk, hmeq⟩ := Option.ne_none_iff_exists'.mp hm
  refine ⟨by rw [henc]; rfl, ?_⟩
  simp only [encrypt_to_groups, hkeq, hmeq] at henc
  obtain rfl : gs = encode_groups
      (vigenere_encrypt (letters_to_nums (sanitize_plaintext text)) (letters_to_nums k))
      seed := (Except.ok.inj henc).symm
  simp only [decrypt_from_groups, hkeq, hmeq]
  rw [decode_groups_encode_groups _ seed (vigenere_encrypt_mem_le _ _)]
  show Except.ok (nums_to_letters (vigenere_decrypt
      (vigenere_encrypt (letters_to_nums (sanitize_plaintext text)) (letters_to_nums k))
      (letters_to_nums k))) = Except.ok (sanitize_plaintext text)
  have hdec : vigenere_decrypt
      (vigenere_encrypt (letters_to_nums (sanitize_plaintext text)) (letters_to_nums k))
      (letters_to_nums k) = letters_to_nums (sanitize_plaintext text) :=
    vigDecAux_vigEncAux (letters_to_nums k) (letters_to_nums (sanitize_plaintext text))
      (letters_to_nums_le _ (sanitize_plaintext_chars text)) 0
  rw [hdec, nums_to_letters_letters_to_nums _ (sanitize_plaintext_chars text)]

theorem encrypt_decrypt_round_trip_witness :
    (sanitize_key (CipherConfig.mk ("b") ("c")).key ≠ none) ∧
    (sanitize_key (CipherConfig.mk ("b") ("c")).mask_key ≠ none) ∧
    (encrypt_to_groups ("A5b c!") (CipherConfig.mk ("b") ("c")) 3 = .ok [("08713")]) ∧
    (exceptIsOk (encrypt_to_groups ("A5b c!") (CipherConfig.mk ("b") ("c")) 3) = true ∧
      decrypt_from_groups [("08713")] (CipherConfig.mk ("b") ("c")) 3 =
        .ok (sanitize_plaintext ("A5b c!"))) :=
  ⟨by decide, by decide, by decide,
    encrypt_decrypt_round_trip ("A5b c!") (CipherConfig.mk ("b") ("c")) 3 [("08713")]
      (by decide) (by decide) (by decide)⟩

/-- C2: for every list of symbols in `0..25` and every mask key (i.e. every
PRNG seed), `decode_groups (encode_groups S seed) seed` returns exactly
`.ok S`: padding, packing, masking, unmasking, unpacking and
sentinel-stripping compose to the identity. -/
theorem encode_decode_groups_round_trip (S : List Nat) (seed : Nat)
    (hS : ∀ a ∈ S, a ≤ 25) :
    decode_groups (encode_groups S seed) seed = .ok S :=
  decode_groups_encode_groups S seed hS

theorem encode_decode_groups_round_trip_witness :
    (∀ a ∈ [7, 4, 11, 11, 14], a ≤ 25) ∧
      decode_groups (encode_groups [7, 4, 11, 11, 14] 99) 99 = .ok [7, 4, 11, 11, 14] :=
  ⟨by decide, encode_decode_groups_round_trip [7, 4, 11, 11, 14] 99 (by decide)⟩

/-- C3: Vigenère decryption inverts Vigenère encryption for symbol lists in
`0..25` and non-empty keys in `0..25`, and both directions preserve the
length of their input. -/
theorem vigenere_round_trip (x k : List Nat) (hx : ∀ a ∈ x, a ≤ 25)
    (hk : ∀ a ∈ k, a ≤ 25) (hk0 : k ≠ []) :
    vigenere_decrypt (vigenere_encrypt x k) k = x ∧
      (vigenere_encrypt x k).length = x.length ∧
      (vigenere_decrypt x k).length = x.length :=
  ⟨vigDecAux_vigEncAux k x hx 0, vigEncAux_length k x 0, vigDecAux_length k x 0⟩

theorem vigenere_round_trip_witness :
    (∀ a ∈ [7, 4, 11, 11, 14], a ≤ 25) ∧ (∀ a ∈ [1, 20], a ≤ 25) ∧
    ([1, 20] ≠ ([] : List Nat)) ∧
    (vigenere_decrypt (vigenere_encrypt [7, 4, 11, 11, 14] [1, 20]) [1, 20] =
        [7, 4, 11, 11, 14] ∧
      (vigenere_encrypt [7, 4, 11, 11, 14] [1, 20]).length = 5 ∧
      (vigenere_decrypt [7, 4, 11, 11, 14] [1, 20]).length = 5) :=
  ⟨by decide, by decide, by decide,
    vigenere_round_trip [7, 4, 11, 11, 14] [1, 20] (by decide) (by decide) (by decide)⟩

theorem token_value (v : Nat) : valFold 0 (zfill5 (decRepr v)).data = v := by
  rw [token_data, valFold_replicate_zero]
  have := valFold_decDigitsCore (v + 1) v 0 (by omega)
  simpa using this

theorem encodeTriples_shape (seed : Nat) : ∀ (P : List Nat) (i : Nat),
    (∀ p ∈ P, p ≤ 19682) → ∀ s ∈ encodeTriples seed P i,
      s.length = 5 ∧ s.data.all isDigitC = true ∧
        pyInt s = some ((valFold 0 s.data : Nat) : Int) ∧ valFold 0 s.data ≤ 99999 := by
  intro P
  induction P with
  | nil => intro i h s hs; simp [encodeTriples] at hs
  | cons p rest ih =>
    intro i h s hs
    simp only [encodeTriples, List.mem_cons] at hs
    rcases hs with h1 | h1
    · subst h1
      have hp : p ≤ 19682 := h p (by simp)
      have hoff : xorshift32 seed i % 80318 < 80318 := Nat.mod_lt _ (by omega)
      have hv : p + xorshift32 seed i % 80318 ≤ 99999 := by omega
      refine ⟨token_length _ hv, ?_, ?_, ?_⟩
      · rw [List.all_eq_true]
        intro c hc
        exact token_all_digit _ c hc
      · rw [token_value, pyInt_token]
      · rw [token_value]
        exact hv
    · exact ih (i + 1) (fun y hy => h y (by simp [hy])) s h1

theorem encode_groups_mem_shape (S : List Nat) (seed : Nat) (hS : ∀ a ∈ S, a ≤ 25) :
    ∀ s ∈ encode_groups S seed,
      s.length = 5 ∧ s.data.all isDigitC = true ∧
        pyInt s = some ((valFold 0 s.data : Nat) : Int) ∧ valFold 0 s.data ≤ 99999 :=
  encodeTriples_shape seed _ 0 (packTriplets_mem _ (padToTriple_mem S hS))

/-- C4: every group emitted by `encode_groups` (and hence by
`encrypt_to_groups`) is exactly 5 decimal digits whose value is at most
99999: the packed triplet is at most 19682 and the offset at most 80317, so
zero-padding to width 5 never truncates. -/
theorem encode_groups_shape (S : List Nat) (seed : Nat) (s : String)
    (text : String) (cfg : CipherConfig) (seed' : Nat) (gs : List String) (s' : String)
    (hS : ∀ a ∈ S, a ≤ 25) (hs : s ∈ encode_groups S seed)
    (henc : encrypt_to_groups text cfg seed' = .ok gs) (hs' : s' ∈ gs) :
    (s.length = 5 ∧ s.data.all isDigitC = true ∧
      pyInt s = some ((valFold 0 s.data : Nat) : Int) ∧ valFold 0 s.data ≤ 99999) ∧
    (s'.length = 5 ∧ s'.data.all isDigitC = true ∧
      pyInt s' = some ((valFold 0 s'.data : Nat) : Int) ∧ valFold 0 s'.data ≤ 99999) := by
  refine ⟨encode_groups_mem_shape S seed hS s hs, ?_⟩
  cases hkeq : sanitize_key cfg.key with
  | none => simp [encrypt_to_groups, hkeq] at henc
  | some k =>
    cases hmeq : sanitize_key cfg.mask_key with
    | none => simp [encrypt_to_groups, hkeq, hmeq] at henc
    | some mkk =>
      simp only [encrypt_to_groups, hkeq, hmeq] at henc
      obtain rfl : gs = encode_groups
          (vigenere_encrypt (letters_to_nums (sanitize_plaintext text)) (letters_to_nums k))
          seed' := (Except.ok.inj henc).symm
      exact encode_groups_mem_shape _ seed' (vigenere_encrypt_mem_le _ _) s' hs'

theorem encode_groups_shape_witness :
    (∀ a ∈ [0], a ≤ 25) ∧ (("00728") ∈ encode_groups [0] 0) ∧
    (encrypt_to_groups ("AB") (CipherConfig.mk ("b") ("c")) 3 = .ok [("08736")]) ∧
    (("08736") ∈ [("08736")]) ∧
    ((("00728") : String).length = 5 ∧ (("00728") : String).data.all isDigitC = true ∧
      pyInt ("00728") = some ((valFold 0 (("00728") : String).data : Nat) : Int) ∧
      valFold 0 (("00728") : String).data ≤ 99999) ∧
    ((("08736") : String).length = 5 ∧ (("08736") : String).data.all isDigitC = true ∧
      pyInt ("08736") = some ((valFold 0 (("08736") : String).data : Nat) : Int) ∧
      valFold 0 (("08736") : String).data ≤ 99999) := by
  refine ⟨by decide, by decide, by decide, by decide, ?_⟩
  have h := encode_groups_shape [0] 0 ("00728") ("AB") (CipherConfig.mk ("b") ("c"))
    3 [("08736")] ("08736") (by decide) (by decide) (by decide) (by decide)
  exact ⟨h.1, h.2⟩

/-- C5: in the decode loop, a parsed non-whitespace token raises
`triplet out of range` exactly when the value minus the group's offset (the
next generator output modulo 80318) falls outside `[0, 19682]`; an in-range
value is unpacked as `(N div 729, N div 27 mod 27, N mod 27)`; whitespace
tokens draw no offset, and encode and decode draw offsets in the same
sequential order, one per non-skipped group. -/
theorem decode_triplet_range_exact (seed i : Nat) (g ws : String) (rest : List String)
    (gi : Int) (p : Nat) (P : List Nat)
    (hne : ¬pyStrip g = String.mk []) (hp : pyInt g = some gi)
    (hws : pyStrip ws = String.mk []) :
    ((gi - ((xorshift32 seed i % 80318 : Nat) : Int) < 0 ∨
        gi - ((xorshift32 seed i % 80318 : Nat) : Int) > 19682) →
      decodeGroupsAux seed (g :: rest) i = .error (.tripletOutOfRange g)) ∧
    (¬(gi - ((xorshift32 seed i % 80318 : Nat) : Int) < 0 ∨
        gi - ((xorshift32 seed i % 80318 : Nat) : Int) > 19682) →
      decodeGroupsAux seed (g :: rest) i =
        match decodeGroupsAux seed rest (i + 1) with
        | .error e => .error e
        | .ok tail =>
          .ok ((gi - ((xorshift32 seed i % 80318 : Nat) : Int)).toNat / (27 * 27) ::
            (gi - ((xorshift32 seed i % 80318 : Nat) : Int)).toNat / 27 % 27 ::
            (gi - ((xorshift32 seed i % 80318 : Nat) : Int)).toNat % 27 :: tail)) ∧
    (decodeGroupsAux seed (ws :: rest) i = decodeGroupsAux seed rest i) ∧
    (encodeTriples seed (p :: P) i =
      zfill5 (decRepr (p + xorshift32 seed i % 80318)) :: encodeTriples seed P (i + 1)) :=
  ⟨fun hr => decodeGroupsAux_range seed i g rest gi hne hp hr,
   fun hr => decodeGroupsAux_ok_step seed i g rest gi hne hp hr,
   decodeGroupsAux_skip seed i ws rest hws, rfl⟩

theorem decode_triplet_range_exact_witness :
    decodeGroupsAux 0 [("00042")] 0 = .ok [0, 1, 15] := by
  have h := (decode_triplet_range_exact 0 0 ("00042") (" ") [] 42 5 []
    (by decide) (by decide) (by decide)).2.1 (by decide)
  exact h.trans (by decide)

/-- C6 counterexample: the token `"-5"` is not a non-negative decimal
numeral (it is not even a digit string), yet `decode_groups` does not raise
`invalid group` on it: Python's `int(·, 10)` parses the sign, so the token
parses to `-5` and the range check raises `triplet out of range` instead. -/
theorem invalid_group_counterexample :
    decode_groups [("-5")] 0 = .error (.tripletOutOfRange ("-5")) ∧
      ¬(decode_groups [("-5")] 0 = .error (.invalidGroup ("-5"))) ∧
      (("-5") : String).data.all isDigitC = false ∧
      pyInt ("-5") = some (-5 : Int) := by decide

theorem invalidGroup_sound (seed : Nat) : ∀ (gs : List String) (i : Nat) (s : String),
    decodeGroupsAux seed gs i = .error (.invalidGroup s) → pyInt s = none := by
  intro gs
  induction gs with
  | nil => intro i s h; exact absurd h (by simp [decodeGroupsAux])
  | cons g rest ih =>
    intro i s h
    by_cases hsk : pyStrip g = String.mk []
    · rw [decodeGroupsAux_skip seed i g rest hsk] at h
      exact ih i s h
    · cases hpy : pyInt g with
      | none =>
        rw [decodeGroupsAux_invalid seed i g rest hsk hpy] at h
        obtain rfl : g = s := by
          have := Except.error.inj h
          exact DecodeErr.invalidGroup.inj this
        exact hpy
      | some gi =>
        by_cases hr : gi - ((xorshift32 seed i % 80318 : Nat) : Int) < 0 ∨
            gi - ((xorshift32 seed i % 80318 : Nat) : Int) > 19682
        · rw [decodeGroupsAux_range seed i g rest gi hsk hpy hr] at h
          simp at h
        · rw [decodeGroupsAux_ok_step seed i g rest gi hsk hpy hr] at h
          cases hrec : decodeGroupsAux seed rest (i + 1) with
          | error e =>
            rw [hrec] at h
            obtain rfl : e = .invalidGroup s := Except.error.inj h
            exact ih (i + 1) s hrec
          | ok tail =>
            rw [hrec] at h
            simp at h

/-- C6 amended: `decode_groups` raises `invalid group` for a non-whitespace
token exactly when the token is rejected by Python's `int(·, 10)` — which
also accepts an optional sign (and underscore separators), so a token that
parses to a negative integer raises `triplet out of range` instead of
`invalid group`.  Decoding `["1234a"]` raises `invalid group` for every
seed, before any offset is drawn. -/
theorem invalid_group_exact (seed i seed' : Nat) (g : String) (rest : List String)
    (hne : ¬pyStrip g = String.mk []) :
    (decodeGroupsAux seed (g :: rest) i = .error (.invalidGroup g) ↔ pyInt g = none) ∧
      decode_groups [("1234a")] seed' = .error (.invalidGroup ("1234a")) := by
  constructor
  · constructor
    · intro h
      exact invalidGroup_sound seed (g :: rest) i g h
    · intro h
      exact decodeGroupsAux_invalid seed i g rest hne h
  · unfold decode_groups
    rw [decodeGroupsAux_invalid seed' 0 ("1234a") [] (by decide) (by decide)]

theorem invalid_group_exact_witness :
    (¬pyStrip ("00042") = String.mk []) ∧
      decode_groups [("1234a")] 5 = .error (.invalidGroup ("1234a")) :=
  ⟨by decide, (invalid_group_exact 0 0 5 ("00042") [] (by decide)).2⟩

theorem dropWhile_head?_false (p : Nat → Bool) (l : List Nat) :
    ∀ c, (l.dropWhile p).head? = some c → p c = false := by
  induction l with
  | nil => intro c h; simp at h
  | cons a rest ih =>
    intro c h
    rw [List.dropWhile_cons] at h
    by_cases hpa : p a = true
    · rw [if_pos hpa] at h
      exact ih c h
    · rw [if_neg hpa] at h
      obtain rfl : a = c := by simpa using h
      simpa using hpa

theorem stripTrailingSentinels_spec (L : List Nat) :
    L = stripTrailingSentinels L ++
        List.replicate (L.length - (stripTrailingSentinels L).length) 26 ∧
      (stripTrailingSentinels L).getLast? ≠ some 26 := by
  have hsplit : L.reverse.takeWhile (fun v => v == 26) ++
      L.reverse.dropWhile (fun v => v == 26) = L.reverse :=
    List.takeWhile_append_dropWhile (fun v => v == 26) L.reverse
  have htake : L.reverse.takeWhile (fun v => v == 26) =
      List.replicate (L.reverse.takeWhile (fun v => v == 26)).length 26 := by
    apply List.eq_replicate_of_mem
    intro b hb
    have := List.mem_takeWhile_imp hb
    simpa using this
  have hTrev : (L.reverse.takeWhile (fun v => v == 26)).reverse =
      List.replicate (L.reverse.takeWhile (fun v => v == 26)).length 26 := by
    conv_lhs => rw [htake]
    rw [List.reverse_replicate]
  constructor
  · have h1 : L = (L.reverse.dropWhile (fun v => v == 26)).reverse ++
        (L.reverse.takeWhile (fun v => v == 26)).reverse := by
      conv_lhs => rw [← List.reverse_reverse L, ← hsplit]
      rw [List.reverse_append]
    rw [stripTrailingSentinels]
    have hlen : L.length - (L.reverse.dropWhile (fun v => v == 26)).reverse.length =
        (L.reverse.takeWhile (fun v => v == 26)).length := by
      have := congrArg List.length h1
      simp only [List.length_append, List.length_reverse] at this ⊢
      omega
    rw [hlen, ← hTrev]
    exact h1
  · rw [stripTrailingSentinels, List.getLast?_reverse]
    intro hcon
    have := dropWhile_head?_false (fun v => v == 26) L.reverse 26 hcon
    simp at this

/-- C7: after the group loop produces the flat sequence `L`, exactly the
maximal trailing run of sentinels `26` is removed (never interior ones), the
call raises `symbol out of range` exactly when a value above 25 (i.e. a
sentinel before the trailing run) remains, and otherwise returns the
stripped sequence. -/
theorem strip_and_validate (groups : List String) (seed : Nat) (L : List Nat)
    (h : decodeGroupsAux seed groups 0 = .ok L) :
    (L = stripTrailingSentinels L ++
        List.replicate (L.length - (stripTrailingSentinels L).length) 26) ∧
      ((stripTrailingSentinels L).getLast? ≠ some 26) ∧
      (decode_groups groups seed = .error .symbolOutOfRange ↔
        (stripTrailingSentinels L).any (fun v => 25 < v) = true) ∧
      ((stripTrailingSentinels L).any (fun v => 25 < v) = false →
        decode_groups groups seed = .ok (stripTrailingSentinels L)) := by
  obtain ⟨hspec1, hspec2⟩ := stripTrailingSentinels_spec L
  refine ⟨hspec1, hspec2, ?_, ?_⟩
  · unfold decode_groups
    rw [h]
    show ((if (stripTrailingSentinels L).any (fun v => 25 < v) then
        Except.error DecodeErr.symbolOutOfRange
      else Except.ok (stripTrailingSentinels L)) = .error .symbolOutOfRange ↔ _)
    by_cases hany : (stripTrailingSentinels L).any (fun v => 25 < v) = true
    · rw [if_pos hany]
      simp [hany]
    · rw [if_neg hany]
      simp [hany]
  · intro hany
    unfold decode_groups
    rw [h]
    show (if (stripTrailingSentinels L).any (fun v => 25 < v) then
        Except.error DecodeErr.symbolOutOfRange
      else Except.ok (stripTrailingSentinels L)) = Except.ok (stripTrailingSentinels L)
    rw [hany]
    simp

theorem strip_and_validate_witness :
    decode_groups [("00026")] 0 = .ok [0, 0] := by
  have h := (strip_and_validate [("00026")] 0 [0, 0, 26] (by decide)).2.2.2 (by decide)
  exact h.trans (by decide)

theorem pyUpper_eq_self_of_lt (c : Char) (h : c.toNat < 97) : pyUpper c = c := by
  simp only [pyUpper]
  rw [if_neg (by omega)]

theorem space_not_word (c : Char) (h : isPySpace c = true) : isWordChar c = false := by
  simp only [isPySpace, Bool.or_eq_true, decide_eq_true_eq] at h
  simp only [isWordChar, isDigitC, Bool.or_eq_false_iff, decide_eq_false_iff_not]
  refine ⟨⟨⟨⟨by omega, by omega⟩, by omega⟩, ?_⟩, by omega⟩
  intro heq
  subst heq
  exact absurd h (by decide)

theorem splitRunsAux_mem (sep : Char → Bool) : ∀ (l acc t : List Char),
    t ∈ splitRunsAux sep l acc → ∀ c ∈ t, c ∈ acc ∨ (c ∈ l ∧ sep c = false) := by
  intro l
  induction l with
  | nil =>
    intro acc t ht c hc
    simp only [splitRunsAux, List.mem_singleton] at ht
    subst ht
    exact Or.inl (List.mem_reverse.mp hc)
  | cons d rest ih =>
    intro acc t ht c hc
    simp only [splitRunsAux] at ht
    by_cases hd : sep d = true
    · rw [if_pos hd] at ht
      rcases List.mem_cons.mp ht with h1 | h1
      · subst h1
        exact Or.inl (List.mem_reverse.mp hc)
      · rcases ih [] t h1 c hc with h2 | h2
        · simp at h2
        · exact Or.inr ⟨by simp [h2.1], h2.2⟩
    · rw [if_neg hd] at ht
      rcases ih (d :: acc) t ht c hc with h2 | h2
      · rcases List.mem_cons.mp h2 with h3 | h3
        · subst h3
          exact Or.inr ⟨by simp, by simpa using hd⟩
        · exact Or.inl h3
      · exact Or.inr ⟨by simp [h2.1], h2.2⟩

theorem splitTokens_mem (sep : Char → Bool) (l : List Char) (t : List Char)
    (ht : t ∈ splitTokens sep l) : t ≠ [] ∧ ∀ c ∈ t, c ∈ l ∧ sep c = false := by
  obtain ⟨h1, h2⟩ := List.mem_filter.mp ht
  refine ⟨by simpa using h2, ?_⟩
  intro c hc
  rcases splitRunsAux_mem sep l [] t h1 c hc with h3 | h3
  · simp at h3
  · exact h3

set_option maxHeartbeats 1000000 in
theorem ruWordDigit_digits (t : List Char) (h : ∀ c ∈ t, isDigitC c = true) :
    ruWordDigit t = none := by
  have hall : t.all isDigitC = true := by
    rw [List.all_eq_true]
    exact h
  unfold ruWordDigit
  split_ifs with h1 h2 h3 h4 h5 h6 h7 h8 h9 h10
  · exfalso; rw [h1] at hall; exact absurd hall (by decide)
  · exfalso; rw [h2] at hall; exact absurd hall (by decide)
  · exfalso; rw [h3] at hall; exact absurd hall (by decide)
  · exfalso; rw [h4] at hall; exact absurd hall (by decide)
  · exfalso; rw [h5] at hall; exact absurd hall (by decide)
  · exfalso; rw [h6] at hall; exact absurd hall (by decide)
  · exfalso; rw [h7] at hall; exact absurd hall (by decide)
  · exfalso; rw [h8] at hall; exact absurd hall (by decide)
  · exfalso; rw [h9] at hall; exact absurd hall (by decide)
  · exfalso; rw [h10] at hall; exact absurd hall (by decide)
  · rfl

/-- C8: given whitespace-delimited literal digit tokens (text made of ASCII
digits and whitespace, with at least one digit), the group-token parser
concatenates all digits found, chunks them into runs of 5 to form the group
list, and fails when the digits do not form complete groups of 5. -/
theorem parse_groups_digit_tokens (text : String)
    (h1 : ∀ c ∈ text.data, isDigitC c = true ∨ isPySpace c = true)
    (h2 : ∃ c ∈ text.data, isDigitC c = true) :
    ((text.data.filter isDigitC).length % 5 = 0 →
      parse_groups_maybe_ru text = .ok (chunk5 (text.data.filter isDigitC))) ∧
    ((text.data.filter isDigitC).length % 5 ≠ 0 →
      exceptIsOk (parse_groups_maybe_ru text) = false) := by
  have hlen1 : 1 ≤ (text.data.filter isDigitC).length := by
    obtain ⟨c, hc, hcd⟩ := h2
    have : c ∈ text.data.filter isDigitC := List.mem_filter.mpr ⟨hc, hcd⟩
    exact List.length_pos.mpr (fun hnil => by simp [hnil] at this)
  by_cases hge : 5 ≤ (text.data.filter isDigitC).length
  · constructor
    · intro hmod
      simp only [parse_groups_maybe_ru]
      rw [if_pos hge, if_pos hmod]
    · intro hmod
      simp only [parse_groups_maybe_ru]
      rw [if_pos hge, if_neg hmod]
      rfl
  · have hnone : ∀ t ∈ splitTokens (fun c => !isWordChar c) (text.data.map pyUpper),
        ruWordDigit t = none := by
      intro t ht
      obtain ⟨hne, hchars⟩ := splitTokens_mem _ _ t ht
      apply ruWordDigit_digits t
      intro c hc
      obtain ⟨hcin, hcw⟩ := hchars c hc
      obtain ⟨c0, hc0, rfl⟩ := List.mem_map.mp hcin
      rcases h1 c0 hc0 with hd | hs
      · rw [pyUpper_eq_self_of_lt c0 (by
          simp only [isDigitC, decide_eq_true_eq] at hd
          omega)]
        exact hd
      · exfalso
        rw [pyUpper_eq_self_of_lt c0 (by
          simp only [isPySpace, Bool.or_eq_true, decide_eq_true_eq] at hs
          omega)] at hcw
        rw [space_not_word c0 hs] at hcw
        simp at hcw
    have hds : (splitTokens (fun c => !isWordChar c) (text.data.map pyUpper)).filterMap
        ruWordDigit = [] := by
      rw [List.filterMap_eq_nil_iff]
      exact hnone
    have hmod : (text.data.filter isDigitC).length % 5 ≠ 0 := by
      have hlt : (text.data.filter isDigitC).length < 5 := by omega
      rw [Nat.mod_eq_of_lt hlt]
      omega
    refine ⟨fun hc => absurd hc hmod, fun _ => ?_⟩
    simp only [parse_groups_maybe_ru]
    rw [if_neg hge, hds]
    rfl

theorem parse_groups_digit_tokens_witness :
    parse_groups_maybe_ru ("12345 67890") = .ok [("12345"), ("67890")] := by
  have h := (parse_groups_digit_tokens ("12345 67890") (by decide) (by decide)).1 (by decide)
  exact h.trans (by decide)

theorem mapK_decodeGroupsAux (seed : Nat) : ∀ (gs : List String) (i : Nat),
    mapK (decodeGroupsAux seed gs i) =
      valsAux seed ((gs.filter (fun g => !(decide (pyStrip g = String.mk [])))).map pyInt) i := by
  intro gs
  induction gs with
  | nil => intro i; rfl
  | cons g rest ih =>
    intro i
    by_cases hsk : pyStrip g = String.mk []
    · rw [decodeGroupsAux_skip seed i g rest hsk]
      rw [List.filter_cons_of_neg (by simp [hsk])]
      exact ih i
    · rw [List.filter_cons_of_pos (by simp [hsk]), List.map_cons]
      cases hpy : pyInt g with
      | none =>
        rw [decodeGroupsAux_invalid seed i g rest hsk hpy]
        rfl
      | some gi =>
        by_cases hr : gi - ((xorshift32 seed i % 80318 : Nat) : Int) < 0 ∨
            gi - ((xorshift32 seed i % 80318 : Nat) : Int) > 19682
        · rw [decodeGroupsAux_range seed i g rest gi hsk hpy hr]
          simp only [valsAux]
          rw [if_pos hr]
          rfl
        · rw [decodeGroupsAux_ok_step seed i g rest gi hsk hpy hr]
          simp only [valsAux]
          rw [if_neg hr]
          rw [← ih (i + 1)]
          cases hrec : decodeGroupsAux seed rest (i + 1) with
          | error e => rfl
          | ok tail => rfl

theorem decodeOutcome_eq_outcomeVals (groups : List String) (seed : Nat) :
    decodeOutcome groups seed = outcomeVals (tokenVals groups) seed := by
  unfold decodeOutcome outcomeVals tokenVals decode_groups
  rw [← mapK_decodeGroupsAux seed groups 0]
  cases hrec : decodeGroupsAux seed groups 0 with
  | error e => rfl
  | ok out =>
    by_cases hany : (stripTrailingSentinels out).any (fun v => 25 < v) = true
    · simp [mapK, hany, errKind]
    · simp [mapK, hany, errKind]

/-- C9: the result of `decode_groups` — or the kind of error it raises —
depends only on the `int(·, 10)` values of the non-whitespace tokens: a
different decimal spelling of the same integer, or inserting or removing
whitespace-only tokens, leaves the outcome unchanged (no token is ever
required to be exactly 5 characters). -/
theorem decode_outcome_tokenVals (g1 g2 : List String) (seed : Nat)
    (h : tokenVals g1 = tokenVals g2) :
    decodeOutcome g1 seed = decodeOutcome g2 seed := by
  rw [decodeOutcome_eq_outcomeVals, decodeOutcome_eq_outcomeVals, h]

theorem decode_outcome_tokenVals_witness :
    (tokenVals [("42"), (""), ("  ")] = tokenVals [("00042")]) ∧
      decodeOutcome [("42"), (""), ("  ")] 0 = decodeOutcome [("00042")] 0 :=
  ⟨by decide, decode_outcome_tokenVals [("42"), (""), ("  ")] [("00042")] 0 (by decide)⟩

/-- C10: with keys that sanitize to non-empty, a plaintext with no letters
encodes to the empty group list without error, and decoding an empty or
whitespace-only token list returns the empty string without error. -/
theorem empty_message_round_trip (cfg : CipherConfig) (seed : Nat) (text : String)
    (gs : List String)
    (hk : sanitize_key cfg.key ≠ none) (hm : sanitize_key cfg.mask_key ≠ none)
    (htext : sanitize_plaintext text = String.mk [])
    (hgs : ∀ g ∈ gs, pyStrip g = String.mk []) :
    encrypt_to_groups text cfg seed = .ok [] ∧
      decrypt_from_groups gs cfg seed = .ok (String.mk []) := by
  obtain ⟨k, hkeq⟩ := Option.ne_none_iff_exists'.mp hk
  obtain ⟨mkk, hmeq⟩ := Option.ne_none_iff_exists'.mp hm
  have hskip : ∀ (l : List String) (i : Nat), (∀ g ∈ l, pyStrip g = String.mk []) →
      decodeGroupsAux seed l i = .ok [] := by
    intro l
    induction l with
    | nil => intro i _; rfl
    | cons g rest ih =>
      intro i hl
      rw [decodeGroupsAux_skip seed i g rest (hl g (by simp))]
      exact ih i (fun g' hg' => hl g' (by simp [hg']))
  constructor
  · simp only [encrypt_to_groups, hkeq, hmeq, htext]
    have h0 : letters_to_nums (String.mk []) = [] := rfl
    have h1 : vigenere_encrypt [] (letters_to_nums k) = [] := rfl
    have h2 : encode_groups [] seed = [] := rfl
    rw [h0, h1, h2]
  · simp only [decrypt_from_groups, hkeq, hmeq]
    have hd : decode_groups gs seed = .ok [] := by
      unfold decode_groups
      rw [hskip gs 0 hgs]
      rfl
    rw [hd]
    rfl

theorem empty_message_round_trip_witness :
    (sanitize_key (CipherConfig.mk ("k") ("m")).key ≠ none) ∧
    (sanitize_key (CipherConfig.mk ("k") ("m")).mask_key ≠ none) ∧
    (sanitize_plaintext ("123 !?") = String.mk []) ∧
    (∀ g ∈ [(""), ("  ")], pyStrip g = String.mk []) ∧
    (encrypt_to_groups ("123 !?") (CipherConfig.mk ("k") ("m")) 0 = .ok [] ∧
      decrypt_from_groups [(""), ("  ")] (CipherConfig.mk ("k") ("m")) 0 =
        .ok (String.mk [])) :=
  ⟨by decide, by decide, by decide, by decide,
    empty_message_round_trip (CipherConfig.mk ("k") ("m")) 0 ("123 !?") [(""), ("  ")]
      (by decide) (by decide) (by decide) (by decide)⟩

example : sanitize_plaintext ("If you solve this, email me!") = ("IFYOUSOLVETHISEMAILME") := by decide
example : sanitize_key ("b2c") = some ("BC") := by decide
example : sanitize_key ("123") = none := by decide
example : vigenere_encrypt [0, 1, 2] [1, 2] = [1, 3, 3] := by decide
example : vigenere_decrypt [1, 3, 3] [1, 2] = [0, 1, 2] := by decide
example : encode_groups [0] 0 = [("00728")] := by decide
example : decode_groups [("00728")] 0 = .ok [0] := by decide
example : decode_groups [("1234a")] 0 = .error (.invalidGroup ("1234a")) := by decide
example : decode_groups [("-5")] 7 = .error (.tripletOutOfRange ("-5")) := by decide
example : pyInt (" 0_42 ") = some 42 := by decide
example : pyInt ("1__2") = none := by decide
example : pyInt ("+17") = some 17 := by decide
example : decode_groups (encode_groups [7, 4, 11, 11, 14] 99) 99 = .ok [7, 4, 11, 11, 14] := by decide
example : parse_groups_maybe_ru ("34179 55014") = .ok [("34179"), ("55014")] := by decide
example : parse_groups_maybe_ru ("341 79") = .ok [("34179")] := by decide
example : parse_groups_maybe_ru ("341 7") = .error .noGroups := by decide
example : parse_groups_maybe_ru ("3417 95501") = .error .trailingDigits := by decide
example : parse_groups_maybe_ru ("ТРИ. ЧЕТЫРЕ. ОДИН. СЕМЬ. ДЕВЯТЬ.") = .ok [("34179")] := by decide
example : parse_groups_text ("  34179  55014 ") = [("34179"), ("55014")] := by decide
example : encrypt_to_groups ("AB") (CipherConfig.mk ("b") ("c")) 3 =
    .ok (encode_groups [1, 2] 3) := by decide
example : decrypt_from_groups (encode_groups [1, 2] 3) (CipherConfig.mk ("b") ("c")) 3 =
    .ok ("AB") := by decide

end Uvb76
